import Mathlib

set_option maxRecDepth 2048

/-!
# Verification of the xi2/xz Go reader façade

Shallow embedding of `src/reader.go` (package xz).  The façade wraps an
incremental XZ decoder (`xzDecRun` / `xzDecReset` / `xzDecInit`, whose
implementation is not part of the sources under verification); the decoder
is therefore modelled as an abstract oracle `Dec σ`, and, where a claim
needs concrete decoder behaviour, by decoder states modelled from the
specification.

Bytes are modelled as `Nat`, Go's `error` values as `Option (Rerr ε)`
where `ε` is the type of errors of the wrapped upstream reader, and the
upstream `io.Reader` as a list of read results (each call pops one).
`Read`'s destination buffer `p` is modelled by its length `plen`; the
bytes the call writes into `p[0:n]` are returned as a list of length `n`.
-/

namespace XzR

/-- Return codes of the core decoder, from the `xzRet` enum of the
decompressor sources. -/
inductive XzRet where
  | ok
  | streamEnd
  | unsupportedCheck
  | memlimitError
  | formatError
  | optionsError
  | dataError
  | bufError
  deriving DecidableEq, Repr

/-- The error kinds exported by the package (`ErrUnsupportedCheck`,
`ErrMemlimit`, `ErrFormat`, `ErrOptions`, `ErrData`, `ErrBuf`,
`ErrNilReader` in `reader.go`). -/
inductive XzErr where
  | errUnsupportedCheck
  | errMemlimit
  | errFormat
  | errOptions
  | errData
  | errBuf
  | errNilReader
  deriving DecidableEq, Repr

/-- A non-nil Go `error` value as observable at the façade boundary:
`io.EOF`, one of the package's error variables, or an error value of the
wrapped upstream reader (type `ε`), surfaced as-is. -/
inductive Rerr (ε : Type) where
  | eof
  | xz (k : XzErr)
  | up (e : ε)
  deriving DecidableEq, Repr

/-- Status accompanying one upstream `Read` result: nil error, `io.EOF`,
or a non-EOF error of type `ε`. -/
inductive UpSt (ε : Type) where
  | okSt
  | eofSt
  | errSt (e : ε)
  deriving DecidableEq, Repr

/-- `DefaultDictMax` from `reader.go` (64 MiB). -/
def DefaultDictMax : Nat := 1 <<< 26

/-- `bufSize` from `reader.go` (8 KiB): size of the decoder output buffer
and of the backing array for the input buffer. -/
def bufSize : Nat := 1 <<< 13

/-- The abstract core decoder.  `run s inp cap` models
`xzDecRun(dec, buf)` called with decoder state `s`, the unread input
slice `buf.in[buf.inPos:]`, and `cap` bytes of output space; it returns
the new decoder state, the number of input bytes consumed, the bytes
written to the output buffer, and a return code.  `reset` models
`xzDecReset(dec)`. -/
structure Dec (σ : Type) where
  run : σ → List Nat → Nat → σ × Nat × List Nat × XzRet
  reset : σ → σ

/-- Well-formedness of a decoder oracle: it consumes no more input than it
is given and writes no more output than it has space for (guaranteed in
the Go sources by the `xzBuf` contract: "This must not exceed input
buffer size"). -/
def DecWF {σ : Type} (D : Dec σ) : Prop :=
  ∀ s inp cap, (D.run s inp cap).2.1 ≤ inp.length ∧
    (D.run s inp cap).2.2.1.length ≤ cap

/-- The state of a `Reader` (struct `Reader` of `reader.go`), together
with the state of the wrapped upstream reader `r.r`, modelled as the
list of results its future `Read` calls will return (a chunk of bytes
plus a status; an exhausted list behaves as a reader that keeps
returning `(0, io.EOF)`). -/
structure Reader (σ ε : Type) where
  multistream : Bool
  rEOF : Bool
  dEOF : Bool
  /-- bytes of stream padding read, or `-1` when decoding a real stream -/
  padding : Int
  /-- `r.outPos`: position within `buf.out` of unwritten (undelivered) data -/
  outPos : Nat
  /-- `buf.in` -/
  bufIn : List Nat
  /-- `buf.inPos` -/
  bufInPos : Nat
  /-- `buf.out` (fixed length `bufSize` when built by `NewReader`) -/
  bufOut : List Nat
  /-- `buf.outPos` -/
  bufOutPos : Nat
  /-- decoder state `r.dec` -/
  dec : σ
  /-- `r.err`: the saved result of the last decoder call -/
  err : Option (Rerr ε)
  /-- the wrapped upstream reader `r.r` -/
  upstream : List (List Nat × UpSt ε)
  deriving DecidableEq, Repr

/-- Number of leading zero bytes of a list; the padding-scan loop of
`Reader.decode` advances over exactly this many bytes. -/
def zcount : List Nat → Nat
  | [] => 0
  | b :: t => if b = 0 then zcount t + 1 else 0

/-- Closed form of the copy loop at the top of `Reader.Read`
(`for r.outPos < r.buf.outPos && n < len(p) { p[n] = r.buf.out[r.outPos]; n++; r.outPos++ }`):
it copies `min (bufOutPos - outPos) (plen - acc.length)` bytes from
`bufOut` starting at `outPos` onto the end of `acc`, and returns the new
`outPos` together with the extended output. -/
def copyOut (bufOut : List Nat) (outPos bufOutPos : Nat) (acc : List Nat)
    (plen : Nat) : Nat × List Nat :=
  let k := min (bufOutPos - outPos) (plen - acc.length)
  (outPos + k, acc ++ (bufOut.drop outPos).take k)

/-- `Reader.decode` from `reader.go`: a wrapper around `xzDecRun` that
additionally handles stream padding (`r.padding >= 0`: reading padding;
`r.padding == -1`: decoding a real stream). -/
def decode {σ ε : Type} (D : Dec σ) (r : Reader σ ε) : Reader σ ε × XzRet :=
  if 0 ≤ r.padding then
    let z := zcount (r.bufIn.drop r.bufInPos)
    let inPos := r.bufInPos + z
    let pad := r.padding + z
    let r1 : Reader σ ε := { r with bufInPos := inPos, padding := pad }
    if inPos = r.bufIn.length ∧ r.rEOF = true then
      -- out of padding, no more input data available
      (r1, if pad % 4 ≠ 0 then .bufError else .streamEnd)
    else if inPos = r.bufIn.length then
      -- read more padding next loop iteration
      (r1, .ok)
    else
      -- out of padding, more input data available
      if pad % 4 ≠ 0 then (r1, .dataError)
      else ({ r1 with dec := D.reset r1.dec }, .streamEnd)
  else
    -- r.buf.outPos = 0; r.outPos = 0; xzDecRun(r.dec, r.buf)
    let st := D.run r.dec (r.bufIn.drop r.bufInPos) r.bufOut.length
    let d := st.1
    let consumed := st.2.1
    let out := st.2.2.1
    let ret := st.2.2.2
    ({ r with
        dec := d
        bufInPos := r.bufInPos + consumed
        bufOut := out ++ r.bufOut.drop out.length
        bufOutPos := out.length
        outPos := 0 }, ret)

/-- The error variable produced by the `switch ret` statement of
`Reader.Read` for each decoder return code (`none` for `xzOK` and
`xzStreamEnd`, which do not set `err`). -/
def xzRetErr : XzRet → Option XzErr
  | .ok => none
  | .streamEnd => none
  | .unsupportedCheck => some .errUnsupportedCheck
  | .memlimitError => some .errMemlimit
  | .formatError => some .errFormat
  | .optionsError => some .errOptions
  | .dataError => some .errData
  | .bufError => some .errBuf

/-- One iteration of the `for` loop of `Reader.Read`, as seen at the top
of the loop: the accumulated output `acc` (the bytes already copied into
`p[0:n]`, so `n = acc.length`), the buffer length `plen = len(p)`, and
the local error variable `err`. -/
structure Cfg (σ ε : Type) where
  rd : Reader σ ε
  plen : Nat
  acc : List Nat
  err : Option (Rerr ε)
  deriving DecidableEq, Repr

/-- Result of one loop iteration: either the call returns (`done`, with
the final reader state, the bytes written to `p`, and the returned
error), or the loop continues with a new configuration. -/
inductive StepRes (σ ε : Type) where
  | done (r : Reader σ ε) (out : List Nat) (err : Option (Rerr ε))
  | cont (c : Cfg σ ε)
  deriving DecidableEq, Repr

/-- The tail of one loop iteration of `Reader.Read`: the call to
`r.decode()`, the `switch ret` statement, and the `r.err = err` save. -/
def decodeStep {σ ε : Type} (D : Dec σ) (plen : Nat) (acc : List Nat)
    (r : Reader σ ε) : StepRes σ ε :=
  let d := decode D r
  match d.2 with
  | .ok => .cont ⟨{ d.1 with err := none }, plen, acc, none⟩
  | .streamEnd =>
    let r1 := d.1
    let de : Bool :=
      if r1.multistream = false ∨ r1.rEOF = true then true else r1.dEOF
    let r2 : Reader σ ε :=
      if 0 ≤ r1.padding then { r1 with padding := -1, dEOF := de }
      else { r1 with padding := 0 }
    .cont ⟨{ r2 with err := none }, plen, acc, none⟩
  | ret =>
    let e : Option (Rerr ε) := (xzRetErr ret).map .xz
    .cont ⟨{ d.1 with err := e }, plen, acc, e⟩

/-- One full iteration of the `for` loop of `Reader.Read`: copy pending
output into `p`, test the three `break` conditions, refill the input
buffer from the upstream reader if needed (returning an upstream non-EOF
error immediately), then decode. -/
def readStep {σ ε : Type} (D : Dec σ) (c : Cfg σ ε) : StepRes σ ε :=
  let co := copyOut c.rd.bufOut c.rd.outPos c.rd.bufOutPos c.acc c.plen
  let r : Reader σ ε := { c.rd with outPos := co.1 }
  let acc := co.2
  -- if p full but output remaining, return with err == nil
  if co.1 < r.bufOutPos ∧ acc.length = c.plen then .done r acc none
  -- all output written; if last decoder call ended with an error, return it
  else if c.err.isSome then .done r acc c.err
  -- if decoder has finished, return with err == io.EOF
  else if r.dEOF = true then .done r acc (some .eof)
  else if r.bufInPos = r.bufIn.length ∧ r.rEOF = false then
    -- read more data from r.r
    match r.upstream with
    | [] =>
      -- an exhausted upstream keeps returning (0, io.EOF)
      decodeStep D c.plen acc { r with rEOF := true, bufIn := [], bufInPos := 0 }
    | (bs, st) :: tl =>
      match st with
      | .errSt e => .done { r with upstream := tl } acc (some (.up e))
      | .eofSt => decodeStep D c.plen acc
          { r with upstream := tl, rEOF := true, bufIn := bs, bufInPos := 0 }
      | .okSt => decodeStep D c.plen acc
          { r with upstream := tl, bufIn := bs, bufInPos := 0 }
  else decodeStep D c.plen acc r

/-- The `for` loop of `Reader.Read`, driven by explicit fuel (the Go loop
has no intrinsic termination bound: an upstream reader that keeps
returning `(0, nil)` makes it spin).  `none` means the fuel ran out. -/
def readLoop {σ ε : Type} (D : Dec σ) :
    Nat → Cfg σ ε → Option (Reader σ ε × List Nat × Option (Rerr ε))
  | 0, _ => none
  | f + 1, c =>
    match readStep D c with
    | .done r out e => some (r, out, e)
    | .cont c' => readLoop D f c'

/-- `Reader.Read`: restore `err` from `r.err`, then run the loop.  The
result is the final reader state, the bytes written to `p[0:n]`, and the
returned error. -/
def readM {σ ε : Type} (D : Dec σ) (fuel : Nat) (r : Reader σ ε)
    (plen : Nat) : Option (Reader σ ε × List Nat × Option (Rerr ε)) :=
  readLoop D fuel ⟨r, plen, [], r.err⟩

/-- `Reader.Multistream` from `reader.go`. -/
def Multistream {σ ε : Type} (r : Reader σ ε) (ok : Bool) : Reader σ ε :=
  { r with multistream := ok }

/-- `Reader.Reset` from `reader.go`. -/
def Reset {σ ε : Type} (r : Reader σ ε) : Reader σ ε × Option (Rerr ε) :=
  if r.dEOF = false then (r, none)
  else if r.rEOF = true then (r, some .eof)
  else ({ r with dEOF := false, multistream := true }, none)

/-- `NewReader` from `reader.go`, parameterized by the decoder
initializer (`xzDecInit` in the sources).  A `nil` upstream reader is
modelled as `none`. -/
def NewReader {σ ε : Type} (init : Nat → σ)
    (up : Option (List (List Nat × UpSt ε))) (dictMax : Nat) :
    Except XzErr (Reader σ ε) :=
  match up with
  | none => .error .errNilReader
  | some u =>
    let dm := if dictMax = 0 then DefaultDictMax else dictMax
    .ok { multistream := true, rEOF := false, dEOF := false, padding := -1,
          outPos := 0, bufIn := [], bufInPos := 0,
          bufOut := List.replicate bufSize 0, bufOutPos := 0,
          dec := init dm, err := none, upstream := u }

/-- Repeatedly call `Read` with a buffer of length `plen`, concatenating
the outputs, until a call returns a non-nil error; used to observe what a
consumer draining the reader sees. -/
def drain {σ ε : Type} (D : Dec σ) (fuel : Nat) :
    Nat → Reader σ ε → Nat → Option (List Nat × Rerr ε)
  | 0, _, _ => none
  | calls + 1, r, plen =>
    match readM D fuel r plen with
    | none => none
    | some (_, out, some e) => some (out, e)
    | some (r', out, none) =>
      match drain D fuel calls r' plen with
      | none => none
      | some (rest, e) => some (out ++ rest, e)

/-- Modelled from the spec: the decoder state created by `xzDecInit`,
whose implementation is not among the sources under verification.  Per
§3 "Lifecycles", "a decoder instance is created with a dictionary-size
cap ... Between streams it resets ... but retains the dictionary-size
cap"; only the retained cap is modelled. -/
structure XzDecM where
  dictMax : Nat
  deriving DecidableEq, Repr

/-- Modelled from the spec: `xzDecInit(dictMax)` creates a decoder
instance holding the dictionary-size cap. -/
def xzDecInit (dictMax : Nat) : XzDecM := ⟨dictMax⟩

/-- Length of the longest common leading run of two lists. -/
def matchLen : List Nat → List Nat → Nat
  | [], _ => 0
  | _ :: _, [] => 0
  | a :: as, b :: bs => if a = b then matchLen as bs + 1 else 0

/-- Modelled from the spec: the per-stream decoding state of the core
decoder (`xzDec`, not among the sources under verification), abstracted
to a script.  `cur = (remB, remP)` records the bytes of the current
stream not yet consumed and the plaintext of the current stream not yet
emitted; `rest` holds the following streams with their plaintexts.  This
models the round-trip property of §8 ("decoding X yields P exactly") for
each stream of the script, together with the cooperative contract of §5
(each call either drains its input, fills its output, or reaches
stream-end / an error). -/
structure ScriptDec where
  cur : List Nat × List Nat
  rest : List (List Nat × List Nat)
  deriving DecidableEq, Repr

/-- Advance a script decoder to its next stream (used at stream-end). -/
def popScript : List (List Nat × List Nat) → ScriptDec
  | [] => ⟨([], []), []⟩
  | n :: t => ⟨n, t⟩

/-- Modelled from the spec: one cooperative `xzDecRun` call of the script
decoder.  While stream bytes remain it consumes the matching run of
input (input that deviates from the current stream is a data error, §7
"data: any corruption"); once the stream's bytes are consumed it emits
the stream's plaintext in output-buffer-sized pieces and finally reports
`xzStreamEnd` (§5: "a terminal status (stream-end or error)").  The
`xzBufError`-on-stalled-input behaviour of the real decoder is not
modelled (it is not needed for complete inputs). -/
def scriptRun (s : ScriptDec) (inp : List Nat) (cap : Nat) :
    ScriptDec × Nat × List Nat × XzRet :=
  match s.cur.1 with
  | [] =>
    let out := s.cur.2.take cap
    let remP := s.cur.2.drop cap
    if remP = [] then (popScript s.rest, 0, out, .streamEnd)
    else (⟨([], remP), s.rest⟩, 0, out, .ok)
  | b :: tb =>
    let c := matchLen inp (b :: tb)
    if c < min inp.length (b :: tb).length then (s, c, [], .dataError)
    else (⟨((b :: tb).drop c, s.cur.2), s.rest⟩, c, [], .ok)

/-- The script decoder as a decoder oracle.  `xzDecReset` is the
identity on this state: the script state becomes fresh for the next
stream already when `scriptRun` reports stream-end, and the model keeps
no dictionary or probability state to clear (§3 "Lifecycles"). -/
def scriptD : Dec ScriptDec := ⟨scriptRun, id⟩

/-- Well-formedness of a `Reader` state: the cursor invariants of the
`xzBuf` contract ("inPos/outPos must not exceed buffer size"), the
delivery cursor staying behind the decode cursor, the padding field
being `-1` or a count, and upstream chunks fitting the `bufSize` backing
array (`r.r.Read(r.in[:])` can read at most `bufSize` bytes). -/
def WFReader {σ ε : Type} (r : Reader σ ε) : Prop :=
  r.outPos ≤ r.bufOutPos ∧ r.bufOutPos ≤ r.bufOut.length ∧
    r.bufInPos ≤ r.bufIn.length ∧ -1 ≤ r.padding ∧
    ∀ ch ∈ r.upstream, ch.1.length ≤ bufSize

/-- Well-formedness of a loop configuration: a well-formed reader and an
output accumulator that fits the caller's buffer. -/
def WFCfg {σ ε : Type} (c : Cfg σ ε) : Prop :=
  WFReader c.rd ∧ c.acc.length ≤ c.plen

/-- The bytes decoded but not yet delivered to the consumer:
`buf.out[r.outPos : buf.outPos]`. -/
def pendingOut {σ ε : Type} (r : Reader σ ε) : List Nat :=
  (r.bufOut.drop r.outPos).take (r.bufOutPos - r.outPos)

/-- `Reaches D c c'`: the `Read` loop, started at configuration `c`,
arrives (after finitely many iterations, none of which returns) at
configuration `c'`. -/
def Reaches {σ ε : Type} (D : Dec σ) (c c' : Cfg σ ε) : Prop :=
  ∃ f, ∀ g, readLoop D (f + g) c = readLoop D g c'

/-- A reader state whose decoder has recorded `ErrData` while two decoded
bytes are still undelivered (the situation of `TestPrematureError`). -/
def pendErrState : Reader ScriptDec Unit :=
  { multistream := true, rEOF := true, dEOF := false, padding := -1,
    outPos := 1, bufIn := [], bufInPos := 0, bufOut := [9, 7, 8],
    bufOutPos := 3, dec := ⟨([], []), []⟩,
    err := some (.xz .errData), upstream := [] }

/-- A reader about to decode the one-byte stream `[5]` (plaintext `[9]`)
whose upstream returns a non-EOF error on the first call and the stream
bytes afterwards. -/
def upErrState : Reader ScriptDec Unit :=
  { multistream := true, rEOF := false, dEOF := false, padding := -1,
    outPos := 0, bufIn := [], bufInPos := 0,
    bufOut := [0, 0, 0, 0], bufOutPos := 0,
    dec := ⟨([5], [9]), []⟩, err := none,
    upstream := [([], .errSt ()), ([5], .eofSt)] }

/-- `upErrState` after its upstream error has been consumed by a `Read`
call. -/
def upErrState2 : Reader ScriptDec Unit :=
  { upErrState with upstream := [([5], .eofSt)] }

/-- A reader positioned in stream padding with four padding zeros in its
input buffer, whose upstream will deliver `[0, 7]` next. -/
def padState : Reader ScriptDec Unit :=
  { multistream := true, rEOF := false, dEOF := false, padding := 0,
    outPos := 0, bufIn := [0, 0, 0, 0], bufInPos := 0, bufOut := [],
    bufOutPos := 0, dec := ⟨([], []), []⟩, err := none,
    upstream := [([0, 7], .okSt)] }

/-- The loop configuration at which a `Read` call on `padState` with a
one-byte buffer starts. -/
def padCfg : Cfg ScriptDec Unit := ⟨padState, 1, [], none⟩

/-- `padCfg` after one loop iteration: the four zeros have been consumed
(`buf.inPos = 4`). -/
def padCfg2 : Cfg ScriptDec Unit :=
  ⟨{ padState with bufInPos := 4, padding := 4 }, 1, [], none⟩

/-- `padCfg2` after one more loop iteration: the input buffer was
refilled with `[0, 7]` and the scan stopped on the non-zero byte with
`buf.inPos = 1` — the cursor moved backwards from 4 to 1 — and the
decoder recorded `ErrData` (padding length 5 is not a multiple of 4). -/
def padCfg3 : Cfg ScriptDec Unit :=
  ⟨{ padState with
      bufIn := [0, 7]
      bufInPos := 1
      padding := 5
      upstream := []
      err := some (.xz .errData) }, 1, [], some (.xz .errData)⟩

/-- The stream-padding contract of `Reader.decode` at a state with
`r.padding >= 0`: the scan consumes exactly the leading zero run of the
unread input; exhausting the input at upstream EOF with a padding total
that is not a multiple of 4 yields `xzBufError` (surfaced as `ErrBuf`);
hitting a non-zero byte with such a total yields `xzDataError`
(`ErrData`); hitting a non-zero byte after a multiple-of-4 run resets
the decoder and yields `xzStreamEnd`, whereupon the `Read` switch clears
the padding state and sets the decoder-finished flag exactly when
multistream is off or the upstream is exhausted. -/
def C4Prop {σ ε : Type} (D : Dec σ) (r : Reader σ ε) : Prop :=
  ((decode D r).1.bufInPos =
      r.bufInPos + zcount (r.bufIn.drop r.bufInPos) ∧
    (decode D r).1.padding =
      r.padding + zcount (r.bufIn.drop r.bufInPos) ∧
    (∀ i, i < zcount (r.bufIn.drop r.bufInPos) →
      (r.bufIn.drop r.bufInPos).getD i 1 = 0) ∧
    (r.bufInPos + zcount (r.bufIn.drop r.bufInPos) ≠ r.bufIn.length →
      (r.bufIn.drop r.bufInPos).getD
        (zcount (r.bufIn.drop r.bufInPos)) 1 ≠ 0)) ∧
  (r.bufInPos + zcount (r.bufIn.drop r.bufInPos) = r.bufIn.length →
    r.rEOF = true →
    (r.padding + zcount (r.bufIn.drop r.bufInPos)) % 4 ≠ 0 →
    (decode D r).2 = .bufError ∧ xzRetErr .bufError = some .errBuf) ∧
  (r.bufInPos + zcount (r.bufIn.drop r.bufInPos) ≠ r.bufIn.length →
    (r.padding + zcount (r.bufIn.drop r.bufInPos)) % 4 ≠ 0 →
    (decode D r).2 = .dataError ∧ xzRetErr .dataError = some .errData) ∧
  (∀ plen acc, r.bufInPos + zcount (r.bufIn.drop r.bufInPos) ≠
      r.bufIn.length →
    (r.padding + zcount (r.bufIn.drop r.bufInPos)) % 4 = 0 →
    (decode D r).2 = .streamEnd ∧ (decode D r).1.dec = D.reset r.dec ∧
    ∃ c', decodeStep D plen acc r = .cont c' ∧ c'.rd.padding = -1 ∧
      c'.rd.dEOF =
        (if r.multistream = false ∨ r.rEOF = true then true
         else r.dEOF))

/-- An upstream reader delivering a byte sequence one byte per `Read`
call (a legal `io.Reader` behaviour; `rn = 1 ≤ bufSize`). -/
def byteChunks (w : List Nat) : List (List Nat × UpSt Unit) :=
  w.map (fun b => ([b], UpSt.okSt))

/-- The wire bytes of a sequence of follow-on streams, each preceded by
its gap of zero-byte stream padding. -/
def wireBytes : List (Nat × List Nat × List Nat) → List Nat
  | [] => []
  | (g, x, _) :: tl => List.replicate g 0 ++ x ++ wireBytes tl

/-- The concatenation of the plaintexts of a sequence of follow-on
streams. -/
def plainBytes : List (Nat × List Nat × List Nat) → List Nat
  | [] => []
  | (_, _, p) :: tl => p ++ plainBytes tl

/-- The reader-state shape maintained throughout a multistream `Read`
run: multistream mode, no recorded error, and a byte-per-call upstream
delivering the remaining wire `w`. -/
def rdC3 (dec : ScriptDec) (pad : Int) (bIn : List Nat) (bInPos : Nat)
    (bOut : List Nat) (bOutPos oPos : Nat) (reof deof : Bool)
    (w : List Nat) : Reader ScriptDec Unit :=
  { multistream := true, rEOF := reof, dEOF := deof, padding := pad,
    outPos := oPos, bufIn := bIn, bufInPos := bInPos, bufOut := bOut,
    bufOutPos := bOutPos, dec := dec, err := none,
    upstream := byteChunks w }

/-- A reader in the padding state whose next input byte is non-zero
after a multiple-of-4 padding run (start of a follow-on stream). -/
def padEndState : Reader ScriptDec Unit :=
  { multistream := true, rEOF := false, dEOF := false, padding := 0,
    outPos := 0, bufIn := [7], bufInPos := 0, bufOut := [], bufOutPos := 0,
    dec := ⟨([7], [1]), []⟩, err := none, upstream := [] }

/-- A reader state that has finished decoding (`dEOF` set) with upstream
input still available (`rEOF` clear). -/
def finState : Reader ScriptDec Unit :=
  { multistream := false, rEOF := false, dEOF := true, padding := -1,
    outPos := 0, bufIn := [], bufInPos := 0, bufOut := [], bufOutPos := 0,
    dec := ⟨([], []), []⟩, err := none, upstream := [([5], .eofSt)] }

end XzR

namespace XzR

section Machinery

variable {σ ε : Type} {D : Dec σ}

theorem reaches_refl (c : Cfg σ ε) : Reaches D c c :=
  ⟨0, fun g => by rw [Nat.zero_add]⟩

theorem reaches_trans {a b c : Cfg σ ε} (h₁ : Reaches D a b)
    (h₂ : Reaches D b c) : Reaches D a c := by
  obtain ⟨f₁, hf₁⟩ := h₁
  obtain ⟨f₂, hf₂⟩ := h₂
  exact ⟨f₁ + f₂, fun g => by rw [Nat.add_assoc, hf₁, hf₂]⟩

theorem reaches_step {c c' : Cfg σ ε} (h : readStep D c = .cont c') :
    Reaches D c c' := by
  refine ⟨1, fun g => ?_⟩
  rw [Nat.add_comm]
  simp [readLoop, h]

theorem reaches_done {c c' : Cfg σ ε} {r : Reader σ ε} {out : List Nat}
    {e : Option (Rerr ε)} (h₁ : Reaches D c c')
    (h₂ : readStep D c' = .done r out e) :
    ∃ f, readLoop D f c = some (r, out, e) := by
  obtain ⟨f, hf⟩ := h₁
  exact ⟨f + 1, by rw [hf 1]; simp [readLoop, h₂]⟩

theorem reaches_loop {c c' : Cfg σ ε} (h : Reaches D c c')
    {f : Nat} {v : Reader σ ε × List Nat × Option (Rerr ε)}
    (hf : readLoop D f c' = some v) : ∃ f', readLoop D f' c = some v := by
  obtain ⟨fr, hr⟩ := h
  exact ⟨fr + f, by rw [hr f, hf]⟩

theorem zcount_le (l : List Nat) : zcount l ≤ l.length := by
  induction l with
  | nil => simp [zcount]
  | cons b t ih => simp only [zcount, List.length_cons]; split <;> omega

/-- Arithmetic of the copy loop: the new `outPos` stays within
`[outPos, bufOutPos]`, the output grows by exactly the copied count, it
never overflows `p`, and if undelivered output remains then `p` is
full. -/
theorem copyOut_spec (B : List Nat) (op bp : Nat) (acc : List Nat)
    (plen : Nat) (h1 : op ≤ bp) (h2 : bp ≤ B.length)
    (h3 : acc.length ≤ plen) :
    (copyOut B op bp acc plen).1 ≤ bp ∧ op ≤ (copyOut B op bp acc plen).1 ∧
      (copyOut B op bp acc plen).2.length =
        acc.length + ((copyOut B op bp acc plen).1 - op) ∧
      (copyOut B op bp acc plen).2.length ≤ plen ∧
      ((copyOut B op bp acc plen).1 < bp →
        (copyOut B op bp acc plen).2.length = plen) := by
  simp only [copyOut, List.length_append, List.length_take, List.length_drop]
  omega

theorem decode_wf (hD : DecWF D) {r r' : Reader σ ε} {ret : XzRet}
    (h : WFReader r) (hd : decode D r = (r', ret)) : WFReader r' := by
  obtain ⟨h1, h2, h3, h4, h5⟩ := h
  have hz := zcount_le (r.bufIn.drop r.bufInPos)
  rw [List.length_drop] at hz
  have hrun := hD r.dec (r.bufIn.drop r.bufInPos) r.bufOut.length
  rw [List.length_drop] at hrun
  simp only [decode] at hd
  split at hd
  · split at hd
    · cases hd
      refine ⟨h1, h2, ?_, ?_, h5⟩ <;> dsimp only <;> omega
    · split at hd
      · cases hd
        refine ⟨h1, h2, ?_, ?_, h5⟩ <;> dsimp only <;> omega
      · split at hd
        · cases hd
          refine ⟨h1, h2, ?_, ?_, h5⟩ <;> dsimp only <;> omega
        · cases hd
          refine ⟨h1, h2, ?_, ?_, h5⟩ <;> dsimp only <;> omega
  · cases hd
    refine ⟨?_, ?_, ?_, ?_, h5⟩
    · dsimp only; omega
    · dsimp only
      simp only [List.length_append, List.length_drop]
      omega
    · dsimp only; omega
    · dsimp only; omega

theorem decodeStep_wf (hD : DecWF D) {plen : Nat} {acc : List Nat}
    {r : Reader σ ε} (hr : WFReader r) (ha : acc.length ≤ plen) :
    ∀ c', decodeStep D plen acc r = .cont c' → WFCfg c' := by
  intro c' h
  rcases hdec : decode D r with ⟨r1, ret⟩
  have hwf1 : WFReader r1 := decode_wf hD hr hdec
  obtain ⟨w1, w2, w3, w4, w5⟩ := hwf1
  simp only [decodeStep, hdec] at h
  cases ret <;> simp only at h
  case ok =>
    cases h
    exact ⟨⟨w1, w2, w3, w4, w5⟩, ha⟩
  case streamEnd =>
    split at h <;> cases h
    · exact ⟨⟨w1, w2, w3, by dsimp only; omega, w5⟩, ha⟩
    · exact ⟨⟨w1, w2, w3, by dsimp only; omega, w5⟩, ha⟩
  all_goals cases h
  all_goals exact ⟨⟨w1, w2, w3, w4, w5⟩, ha⟩

/-- Preservation of the cursor invariants by one iteration of the `Read`
loop, together with the output-fits-the-buffer guarantee on return. -/
theorem decodeStep_ne_done (plen : Nat) (acc : List Nat) (r : Reader σ ε)
    (rr : Reader σ ε) (out : List Nat) (e : Option (Rerr ε)) :
    decodeStep D plen acc r ≠ .done rr out e := by
  rcases hd : decode D r with ⟨r1, ret⟩
  simp only [decodeStep, hd]
  cases ret <;> simp

theorem step_wf (hD : DecWF D) {c : Cfg σ ε} (h : WFCfg c) :
    (∀ c', readStep D c = .cont c' → WFCfg c') ∧
    (∀ r out e, readStep D c = .done r out e →
      WFReader r ∧ out.length ≤ c.plen) := by
  obtain ⟨⟨h1, h2, h3, h4, h5⟩, ha⟩ := h
  have hco := copyOut_spec c.rd.bufOut c.rd.outPos c.rd.bufOutPos c.acc
    c.plen h1 h2 ha
  obtain ⟨co1, co2, co3, co4, co5⟩ := hco
  constructor
  · intro c' hs
    simp only [readStep] at hs
    split at hs
    · cases hs
    split at hs
    · cases hs
    split at hs
    · cases hs
    split at hs
    · -- refill branch
      split at hs
      · -- upstream exhausted
        refine decodeStep_wf hD ?_ co4 c' hs
        exact ⟨co1, h2, Nat.zero_le _, h4, h5⟩
      · -- upstream chunk available
        rename_i bs st tl heq
        have hbs : ∀ ch ∈ tl, ch.1.length ≤ bufSize := fun ch hch =>
          h5 ch (by rw [show c.rd.upstream = (bs, st) :: tl from heq]
                    exact List.mem_cons_of_mem _ hch)
        have hb : bs.length ≤ bufSize :=
          h5 (bs, st) (by rw [show c.rd.upstream = (bs, st) :: tl from heq]
                          exact List.mem_cons_self _ _)
        split at hs
        · cases hs
        · refine decodeStep_wf hD ?_ co4 c' hs
          exact ⟨co1, h2, Nat.zero_le _, h4, hbs⟩
        · refine decodeStep_wf hD ?_ co4 c' hs
          exact ⟨co1, h2, Nat.zero_le _, h4, hbs⟩
    · refine decodeStep_wf hD ?_ co4 c' hs
      exact ⟨co1, h2, h3, h4, h5⟩
  · intro r out e hs
    simp only [readStep] at hs
    split at hs
    · cases hs
      exact ⟨⟨co1, h2, h3, h4, h5⟩, co4⟩
    split at hs
    · cases hs
      exact ⟨⟨co1, h2, h3, h4, h5⟩, co4⟩
    split at hs
    · cases hs
      exact ⟨⟨co1, h2, h3, h4, h5⟩, co4⟩
    split at hs
    · split at hs
      · -- decodeStep never returns done
        exact absurd hs (decodeStep_ne_done _ _ _ _ _ _)
      · rename_i bs st tl heq
        have hbs : ∀ ch ∈ tl, ch.1.length ≤ bufSize := fun ch hch =>
          h5 ch (by rw [show c.rd.upstream = (bs, st) :: tl from heq]
                    exact List.mem_cons_of_mem _ hch)
        split at hs
        · cases hs
          exact ⟨⟨co1, h2, h3, h4, hbs⟩, co4⟩
        · exact absurd hs (decodeStep_ne_done _ _ _ _ _ _)
        · exact absurd hs (decodeStep_ne_done _ _ _ _ _ _)
    · exact absurd hs (decodeStep_ne_done _ _ _ _ _ _)

theorem decodeStep_err {plen : Nat} {acc : List Nat} {r : Reader σ ε}
    {c' : Cfg σ ε} (h : decodeStep D plen acc r = .cont c') :
    c'.rd.err = c'.err := by
  rcases hd : decode D r with ⟨r1, ret⟩
  simp only [decodeStep, hd] at h
  cases ret <;> simp only at h
  case ok => cases h; rfl
  case streamEnd => split at h <;> cases h <;> rfl
  all_goals cases h
  all_goals rfl

theorem cont_err_saved {c c' : Cfg σ ε} (hs : readStep D c = .cont c') :
    c'.rd.err = c'.err := by
  simp only [readStep] at hs
  split at hs
  · cases hs
  split at hs
  · cases hs
  split at hs
  · cases hs
  split at hs
  · split at hs
    · exact decodeStep_err hs
    · split at hs
      · cases hs
      · exact decodeStep_err hs
      · exact decodeStep_err hs
  · exact decodeStep_err hs

/-- Characterization of a `Read`-loop return carrying one of the
package's error kinds: it comes from the `err != nil` break, so the
error equals the saved `r.err` and all decoded output has been
delivered. -/
theorem done_xz {c : Cfg σ ε} (hwf : WFCfg c)
    (hI : c.err.isSome = true → c.err = c.rd.err) {r : Reader σ ε}
    {out : List Nat} {k : XzErr}
    (hs : readStep D c = .done r out (some (.xz k))) :
    r.err = some (.xz k) ∧ r.outPos = r.bufOutPos := by
  obtain ⟨⟨h1, h2, h3, h4, h5⟩, ha⟩ := hwf
  have hco := copyOut_spec c.rd.bufOut c.rd.outPos c.rd.bufOutPos c.acc
    c.plen h1 h2 ha
  obtain ⟨co1, co2, co3, co4, co5⟩ := hco
  simp only [readStep] at hs
  split at hs
  · cases hs
  split at hs
  · -- the err != nil break
    rename_i hnfull hsome
    injection hs with hr ho he
    subst hr
    have he2 : c.rd.err = some (.xz k) := (hI hsome).symm.trans he
    have hnb : ¬ ((copyOut c.rd.bufOut c.rd.outPos c.rd.bufOutPos c.acc
        c.plen).1 < c.rd.bufOutPos) := fun hlt => hnfull ⟨hlt, co5 hlt⟩
    exact ⟨he2, by dsimp only; omega⟩
  · split at hs
    · cases hs
    split at hs
    · split at hs
      · exact absurd hs (decodeStep_ne_done _ _ _ _ _ _)
      · split at hs
        · cases hs
        · exact absurd hs (decodeStep_ne_done _ _ _ _ _ _)
        · exact absurd hs (decodeStep_ne_done _ _ _ _ _ _)
    · exact absurd hs (decodeStep_ne_done _ _ _ _ _ _)

/-- If the `Read` loop returns one of the package's error kinds, the
final reader state has that error saved in `r.err` and no undelivered
output. -/
theorem loop_sticky (hD : DecWF D) (k : XzErr) :
    ∀ f (c : Cfg σ ε) r out, WFCfg c →
    (c.err.isSome = true → c.err = c.rd.err) →
    readLoop D f c = some (r, out, some (.xz k)) →
    r.err = some (.xz k) ∧ r.outPos = r.bufOutPos := by
  intro f
  induction f with
  | zero => intro c r out _ _ h; simp [readLoop] at h
  | succ f ih =>
    intro c r out hwf hI h
    rw [readLoop] at h
    rcases hs : readStep D c with ⟨r', out', e'⟩ | c' <;> rw [hs] at h
    · obtain ⟨he1, he2, he3⟩ : r' = r ∧ out' = out ∧ e' = some (.xz k) := by
        cases h; exact ⟨rfl, rfl, rfl⟩
      subst he1; subst he2; subst he3
      exact done_xz hwf hI hs
    · exact ih c' r out ((step_wf hD hwf).1 c' hs)
        (fun _ => (cont_err_saved hs).symm) h

theorem matchLen_le_left : ∀ l1 l2 : List Nat, matchLen l1 l2 ≤ l1.length := by
  intro l1
  induction l1 with
  | nil => intro l2; cases l2 <;> simp [matchLen]
  | cons a t ih =>
    intro l2
    cases l2 with
    | nil => simp [matchLen]
    | cons b t2 =>
      simp only [matchLen, List.length_cons]
      split
      · exact Nat.succ_le_succ (ih t2)
      · exact Nat.zero_le _

/-- The script decoder satisfies the decoder-oracle contract. -/
theorem scriptD_wf : DecWF scriptD := by
  intro s inp cap
  rcases s with ⟨⟨remB, remP⟩, rest⟩
  cases remB with
  | nil =>
    simp only [scriptD, scriptRun]
    split <;>
      exact ⟨Nat.zero_le _, by
        simp only [List.length_take]
        exact Nat.min_le_left _ _⟩
  | cons b tb =>
    simp only [scriptD, scriptRun]
    split <;> exact ⟨matchLen_le_left _ _, Nat.zero_le _⟩

theorem zcount_zeros : ∀ (l : List Nat) i, i < zcount l → l.getD i 1 = 0 := by
  intro l
  induction l with
  | nil => intro i h; simp [zcount] at h
  | cons b t ih =>
    intro i h
    simp only [zcount] at h
    split at h
    · rename_i hb
      cases i with
      | zero => simpa [List.getD_cons_zero] using hb
      | succ j => simpa [List.getD_cons_succ] using ih j (by omega)
    · omega

theorem zcount_stop : ∀ l : List Nat, zcount l = l.length ∨
    l.getD (zcount l) 1 ≠ 0 := by
  intro l
  induction l with
  | nil => left; rfl
  | cons b t ih =>
    by_cases hb : b = 0
    · simp only [zcount, if_pos hb]
      rcases ih with h | h
      · left; simp [h]
      · right; simpa [List.getD_cons_succ] using h
    · right; simp [zcount, hb, List.getD_cons_zero]

theorem decode_mono (D : Dec σ) (r r1 : Reader σ ε) (ret : XzRet)
    (hd : decode D r = (r1, ret)) :
    r.bufInPos ≤ r1.bufInPos ∧ (r.outPos ≤ r1.outPos ∨ r1.outPos = 0) := by
  simp only [decode] at hd
  split at hd
  · split at hd
    · cases hd
      exact ⟨by dsimp only; omega, Or.inl (by dsimp only; exact le_rfl)⟩
    · split at hd
      · cases hd
        exact ⟨by dsimp only; omega, Or.inl (by dsimp only; exact le_rfl)⟩
      · split at hd
        · cases hd
          exact ⟨by dsimp only; omega, Or.inl (by dsimp only; exact le_rfl)⟩
        · cases hd
          exact ⟨by dsimp only; omega, Or.inl (by dsimp only; exact le_rfl)⟩
  · cases hd
    exact ⟨by dsimp only; omega, Or.inr rfl⟩

theorem decodeStep_mono {plen : Nat} {acc : List Nat} {r : Reader σ ε}
    {c' : Cfg σ ε} (h : decodeStep D plen acc r = .cont c') :
    r.bufInPos ≤ c'.rd.bufInPos ∧
      (r.outPos ≤ c'.rd.outPos ∨ c'.rd.outPos = 0) ∧ c'.acc = acc := by
  rcases hd : decode D r with ⟨r1, ret⟩
  have hm := decode_mono D r r1 ret hd
  simp only [decodeStep, hd] at h
  cases ret <;> simp only at h
  case ok => cases h; exact ⟨hm.1, hm.2, rfl⟩
  case streamEnd =>
    split at h <;> cases h
    · exact ⟨hm.1, hm.2, rfl⟩
    · exact ⟨hm.1, hm.2, rfl⟩
  all_goals cases h
  all_goals exact ⟨hm.1, hm.2, rfl⟩

end Machinery

end XzR

namespace XzR

section Claims

variable {σ ε : Type}

/-- C6: For every Reader that has finished reading a stream (decoding
complete, `dEOF` set): `Reset` returns `io.EOF` if and only if the
upstream byte source is exhausted (`rEOF`, no follow-on streams);
otherwise `Reset` returns nil, clears the finished flag so that reading
the next stream may proceed, and sets the multistream flag back to
true. -/
theorem c6_reset_after_finish (s : Reader σ ε) (h : s.dEOF = true) :
    ((Reset s).2 = some .eof ↔ s.rEOF = true) ∧
      (s.rEOF = false →
        Reset s = ({ s with dEOF := false, multistream := true }, none)) := by
  rcases hr : s.rEOF <;> simp [Reset, h, hr]

theorem c6_witness :
    ((Reset finState).2 = some .eof ↔ finState.rEOF = true) ∧
      (finState.rEOF = false →
        Reset finState =
          ({ finState with dEOF := false, multistream := true }, none)) :=
  c6_reset_after_finish finState rfl

/-- C10: For every Reader on which decoding has not yet completed
(`dEOF` clear): `Reset` returns nil and mutates no field; and in every
case `Reset` mutates at most the decoder-finished flag and the
multistream flag, leaving the decoder state, buffers, cursors, and
padding counter unchanged. -/
theorem c10_reset_frame (s : Reader σ ε) :
    (s.dEOF = false → Reset s = (s, none)) ∧
      ((Reset s).1 = s ∨
        (Reset s).1 = { s with dEOF := false, multistream := true }) := by
  constructor
  · intro h; simp [Reset, h]
  · rcases hd : s.dEOF <;> rcases hr : s.rEOF <;> simp [Reset, hd, hr]

theorem c10_witness :
    Reset pendErrState = (pendErrState, none) ∧
      ((Reset pendErrState).1 = pendErrState ∨
        (Reset pendErrState).1 =
          { pendErrState with dEOF := false, multistream := true }) :=
  ⟨(c10_reset_frame pendErrState).1 rfl, (c10_reset_frame pendErrState).2⟩

/-- C7: `NewReader(nil, dictMax)` returns `ErrNilReader` and no Reader;
`NewReader(r, 0)` with non-nil `r` succeeds and configures the
dictionary-size cap to the default of 64 MiB (`DefaultDictMax = 2^26`);
`NewReader(r, d)` with `d > 0` succeeds and configures the cap to `d`;
the returned Reader has its multistream flag initially true. -/
theorem c7_newreader (u : List (List Nat × UpSt ε)) (d : Nat) (hd : 0 < d) :
    NewReader (ε := ε) xzDecInit none d = .error .errNilReader ∧
      (∃ r, NewReader xzDecInit (some u) 0 = .ok r ∧
        r.dec.dictMax = DefaultDictMax ∧ r.multistream = true) ∧
      (∃ r, NewReader xzDecInit (some u) d = .ok r ∧
        r.dec.dictMax = d ∧ r.multistream = true) ∧
      DefaultDictMax = 2 ^ 26 := by
  have hd0 : ¬ d = 0 := Nat.pos_iff_ne_zero.mp hd
  refine ⟨rfl, ?_, ?_, by decide⟩
  · refine ⟨_, rfl, ?_, ?_⟩ <;> rfl
  · refine ⟨{ multistream := true
              rEOF := false
              dEOF := false
              padding := -1
              outPos := 0
              bufIn := []
              bufInPos := 0
              bufOut := List.replicate bufSize 0
              bufOutPos := 0
              dec := xzDecInit d
              err := none
              upstream := u }, ?_, rfl, rfl⟩
    simp [NewReader, hd0]

theorem c7_witness :
    NewReader (ε := Unit) xzDecInit none 3 = .error .errNilReader ∧
      (∃ r, NewReader xzDecInit (some ([] : List (List Nat × UpSt Unit))) 0 =
          .ok r ∧ r.dec.dictMax = DefaultDictMax ∧ r.multistream = true) ∧
      (∃ r, NewReader xzDecInit (some ([] : List (List Nat × UpSt Unit))) 3 =
          .ok r ∧ r.dec.dictMax = 3 ∧ r.multistream = true) ∧
      DefaultDictMax = 2 ^ 26 :=
  c7_newreader [] 3 (by decide)

/-- A single `Read` call on a reader whose decoder has already recorded
an error delivers the next `min (pending, len p)` undelivered bytes; it
returns the recorded error exactly when the pending output fits in `p`,
and nil otherwise. -/
theorem readM_err_step (D : Dec σ) (s : Reader σ ε) (e : Rerr ε)
    (plen : Nat) (hwf : WFReader s) (herr : s.err = some e) :
    readM D 1 s plen =
      some ({ s with outPos := s.outPos + min (s.bufOutPos - s.outPos) plen },
        (s.bufOut.drop s.outPos).take (min (s.bufOutPos - s.outPos) plen),
        if s.bufOutPos - s.outPos ≤ plen then some e else none) := by
  obtain ⟨h1, h2, h3, h4, h5⟩ := hwf
  simp only [readM, readLoop, readStep, copyOut, herr, List.length_nil,
    Nat.sub_zero, List.nil_append]
  by_cases hle : s.bufOutPos - s.outPos ≤ plen
  · have hmin : min (s.bufOutPos - s.outPos) plen = s.bufOutPos - s.outPos :=
      Nat.min_eq_left hle
    rw [hmin]
    rw [if_neg (by omega), if_pos (by simp), if_pos hle]
  · have hmin : min (s.bufOutPos - s.outPos) plen = plen :=
      Nat.min_eq_right (by omega)
    rw [hmin]
    rw [if_pos ⟨by omega, by
      simp only [List.length_take, List.length_drop]
      omega⟩, if_neg hle]

/-- C2: For every Reader: when the decoder records an error during a
`Read` call, all output bytes already decoded before the error point are
delivered to the caller (across one or more `Read` calls if the supplied
buffer is smaller than the pending output) before the error itself is
returned; decoded bytes preceding the error are never withheld.  (Stated
from the recorded-error state: draining the reader returns exactly the
pending decoded bytes followed by the recorded error.) -/
theorem c2_decoded_bytes_before_error (D : Dec σ) (s : Reader σ ε)
    (e : Rerr ε) (plen : Nat) (hwf : WFReader s) (herr : s.err = some e)
    (hp : 0 < plen) :
    ∃ calls, drain D 1 calls s plen = some (pendingOut s, e) := by
  suffices H : ∀ n (s : Reader σ ε), s.bufOutPos - s.outPos ≤ n →
      WFReader s → s.err = some e →
      ∃ calls, drain D 1 calls s plen = some (pendingOut s, e) by
    exact H _ s le_rfl hwf herr
  intro n
  induction n with
  | zero =>
    intro s hn hwf herr
    refine ⟨1, ?_⟩
    rw [drain, readM_err_step D s e plen hwf herr]
    have hz : s.bufOutPos - s.outPos = 0 := by omega
    rw [hz]
    simp [pendingOut, hz]
  | succ n ih =>
    intro s hn hwf herr
    obtain ⟨h1, h2, h3, h4, h5⟩ := hwf
    by_cases hle : s.bufOutPos - s.outPos ≤ plen
    · refine ⟨1, ?_⟩
      rw [drain, readM_err_step D s e plen ⟨h1, h2, h3, h4, h5⟩ herr]
      rw [Nat.min_eq_left hle, if_pos hle]
      rfl
    · obtain ⟨calls, hc⟩ := ih { s with outPos := s.outPos + plen }
        (by dsimp only; omega)
        ⟨by dsimp only; omega, h2, h3, h4, h5⟩ herr
      refine ⟨calls + 1, ?_⟩
      rw [drain, readM_err_step D s e plen ⟨h1, h2, h3, h4, h5⟩ herr]
      rw [Nat.min_eq_right (by omega), if_neg hle]
      simp only
      rw [hc]
      have e1 : s.bufOut.drop (s.outPos + plen) =
          (s.bufOut.drop s.outPos).drop plen := by
        rw [List.drop_drop]
      have e2 : pendingOut { s with outPos := s.outPos + plen } =
          ((s.bufOut.drop s.outPos).drop plen).take
            (s.bufOutPos - (s.outPos + plen)) := by
        simp only [pendingOut]
        rw [e1]
      have e3 : (s.bufOut.drop s.outPos).take plen ++
          ((s.bufOut.drop s.outPos).drop plen).take
            (s.bufOutPos - (s.outPos + plen)) =
          (s.bufOut.drop s.outPos).take (s.bufOutPos - s.outPos) := by
        rw [← List.take_add]
        congr 1
        omega
      rw [e2]
      dsimp only
      rw [e3]
      rfl

theorem c2_witness :
    ∃ calls, drain scriptD 1 calls pendErrState 1 =
      some (pendingOut pendErrState, .xz .errData) :=
  c2_decoded_bytes_before_error scriptD pendErrState (.xz .errData) 1
    (by refine ⟨?_, ?_, ?_, ?_, ?_⟩ <;> decide) rfl (by decide)

/-- C8: For every Reader and every error `e` other than `io.EOF`
returned by the wrapped upstream reader's `Read`: the façade's `Read`
treats `e` as fatal and returns it to the caller unchanged (the same
error value, not translated to one of the xz error kinds), after
delivering any bytes already decoded. -/
theorem c8_upstream_error_unchanged (D : Dec σ) (s : Reader σ ε)
    (bs : List Nat) (eu : ε) (tl : List (List Nat × UpSt ε)) (plen : Nat)
    (hwf : WFReader s) (herr : s.err = none) (hde : s.dEOF = false)
    (hin : s.bufInPos = s.bufIn.length) (hre : s.rEOF = false)
    (hup : s.upstream = (bs, .errSt eu) :: tl)
    (hroom : s.bufOutPos - s.outPos < plen) :
    readM D 1 s plen =
      some ({ s with outPos := s.bufOutPos, upstream := tl },
        pendingOut s, some (.up eu)) := by
  obtain ⟨h1, h2, h3, h4, h5⟩ := hwf
  rcases s with ⟨ms, re, de, pad, op, bIn, bIp, bOut, bOp, dc, er, up⟩
  simp only at h1 h2 h3 herr hde hin hre hup hroom
  subst herr; subst hde; subst hin; subst hre; subst hup
  simp only [readM, readLoop, readStep, copyOut, pendingOut, Option.isSome_none,
    List.length_nil, Nat.sub_zero, List.nil_append]
  have hm : min (bOp - op) plen = bOp - op := Nat.min_eq_left (by omega)
  rw [hm]
  rw [if_neg (by omega), if_neg (by simp), if_neg (by simp),
    if_pos (by simp)]
  simp only
  rw [Nat.add_sub_cancel' h1]

theorem c8_witness :
    readM scriptD 1 upErrState 4 =
      some ({ upErrState with
               outPos := upErrState.bufOutPos
               upstream := [([5], .eofSt)] }, pendingOut upErrState,
        some (.up ())) :=
  c8_upstream_error_unchanged scriptD upErrState [] () [([5], .eofSt)] 4
    (by refine ⟨?_, ?_, ?_, ?_, ?_⟩ <;> decide) rfl rfl rfl rfl rfl
    (by decide)

/-- C1 (amended): once a `Read` call has returned an error recorded by
the decoder (one of the package's xz error kinds `ErrUnsupportedCheck`,
`ErrMemlimit`, `ErrFormat`, `ErrOptions`, `ErrData`, `ErrBuf`), every
subsequent `Read` call on that Reader returns zero bytes written and the
same error, and leaves the Reader's state unchanged.  (Amended from the
claim: a non-EOF error coming from the wrapped upstream reader is
surfaced but not saved in `r.err` — the `break` on a read error skips
the save — so it is not idempotent; see the counterexample.) -/
theorem c1_sticky_xz_errors (D : Dec σ) (hD : DecWF D) (s : Reader σ ε)
    (hwf : WFReader s) (f plen : Nat) (s' : Reader σ ε) (out : List Nat)
    (k : XzErr) (hrun : readM D f s plen = some (s', out, some (.xz k))) :
    ∀ plen2 f2, readM D (f2 + 1) s' plen2 = some (s', [], some (.xz k)) := by
  have hmain := loop_sticky hD k f ⟨s, plen, [], s.err⟩ s' out
    ⟨hwf, by simp⟩ (fun _ => rfl) hrun
  obtain ⟨he, hdr⟩ := hmain
  intro plen2 f2
  rcases s' with ⟨ms, re, de, pad, op, bIn, bIp, bOut, bOp, dc, er, up⟩
  simp only at he hdr
  subst he; subst hdr
  simp [readM, readLoop, readStep, copyOut]

/-- C1 counterexample: on a fresh reader whose upstream errors once and
then delivers a valid stream, the first `Read` returns the (non-EOF)
upstream error, but the second `Read` returns one decoded byte and
`io.EOF` — not zero bytes and the same error, refuting the claim for
errors surfaced from the upstream reader. -/
theorem c1_counterexample :
    readM scriptD 1 upErrState 4 = some (upErrState2, [], some (.up ())) ∧
      (readM scriptD 6 upErrState2 4).map (fun t => (t.2.1, t.2.2)) =
        some ([9], some .eof) ∧
      ([9] : List Nat) ≠ [] ∧
      some (Rerr.eof (ε := Unit)) ≠ some (Rerr.up ()) :=
  ⟨rfl, rfl, by decide, by decide⟩

theorem c1_witness :
    readM scriptD (0 + 1) { pendErrState with outPos := 3 } 4 =
      some ({ pendErrState with outPos := 3 }, [], some (.xz .errData)) :=
  c1_sticky_xz_errors scriptD scriptD_wf pendErrState
    (by refine ⟨?_, ?_, ?_, ?_, ?_⟩ <;> decide) 1 4
    { pendErrState with outPos := 3 } [7, 8] .errData rfl 4 0

/-- C4: For every Reader positioned in stream padding (`r.padding >= 0`)
after a stream footer: zero bytes are consumed as padding (the scan
advances over exactly the leading run of `0x00` bytes); if upstream EOF
is reached while the total padding length is not a multiple of 4,
`decode` reports `xzBufError`, which `Read` surfaces as `ErrBuf`; if a
non-zero byte is encountered while the total is not a multiple of 4,
`decode` reports `xzDataError`, surfaced as `ErrData`; if a non-zero
byte is encountered after a multiple-of-4 run, the decoder is reset and
`xzStreamEnd` is reported, whereupon `Read` clears the padding state and
continues with the next stream in multistream mode (upstream not
exhausted) or marks decoding finished (single-stream mode or upstream
exhausted). -/
theorem c4_stream_padding (D : Dec σ) (r : Reader σ ε)
    (hp : 0 ≤ r.padding) (hin : r.bufInPos ≤ r.bufIn.length) :
    C4Prop D r := by
  unfold C4Prop
  refine ⟨⟨?_, ?_, ?_, ?_⟩, ?_, ?_, ?_⟩
  · by_cases c1 : r.bufInPos + zcount (r.bufIn.drop r.bufInPos) =
      r.bufIn.length
    · by_cases c2 : r.rEOF = true <;> simp [decode, hp, c1, c2]
    · by_cases c3 : (r.padding + zcount (r.bufIn.drop r.bufInPos)) % 4 = 0 <;>
        simp [decode, hp, c1, c3]
  · by_cases c1 : r.bufInPos + zcount (r.bufIn.drop r.bufInPos) =
      r.bufIn.length
    · by_cases c2 : r.rEOF = true <;> simp [decode, hp, c1, c2]
    · by_cases c3 : (r.padding + zcount (r.bufIn.drop r.bufInPos)) % 4 = 0 <;>
        simp [decode, hp, c1, c3]
  · exact zcount_zeros _
  · intro hne
    rcases zcount_stop (r.bufIn.drop r.bufInPos) with h | h
    · rw [List.length_drop] at h
      omega
    · exact h
  · intro h1 h2 h3
    exact ⟨by simp [decode, hp, h1, h2, h3], rfl⟩
  · intro h1 h2
    exact ⟨by simp [decode, hp, h1, h2], rfl⟩
  · intro plen acc h1 h2
    refine ⟨by simp [decode, hp, h1, h2], by simp [decode, hp, h1, h2], ?_⟩
    rcases hd : decode D r with ⟨r1, ret⟩
    have hret : ret = .streamEnd := by
      have := congrArg Prod.snd hd
      simp at this
      rw [← this]
      simp [decode, hp, h1, h2]
    subst hret
    have hpad : 0 ≤ r1.padding := by
      have h' : (decode D r).1 = r1 := by rw [hd]
      rw [← h']
      simp only [decode, if_pos hp]
      rw [if_neg (by simp [h1]), if_neg h1]
      split <;> dsimp only <;> omega
    have hfields : r1.multistream = r.multistream ∧ r1.rEOF = r.rEOF ∧
        r1.dEOF = r.dEOF := by
      have h' : (decode D r).1 = r1 := by rw [hd]
      rw [← h']
      simp only [decode, if_pos hp]
      rw [if_neg (by simp [h1]), if_neg h1]
      split <;> exact ⟨rfl, rfl, rfl⟩
    have hds : decodeStep D plen acc r =
        .cont ⟨{ r1 with
                  padding := -1
                  dEOF := if r1.multistream = false ∨ r1.rEOF = true then
                    true else r1.dEOF
                  err := none }, plen, acc, none⟩ := by
      simp only [decodeStep, hd]
      rw [if_pos hpad]
    refine ⟨_, hds, rfl, ?_⟩
    dsimp only
    rw [hfields.1, hfields.2.1, hfields.2.2]

theorem c4_witness : C4Prop scriptD padState :=
  c4_stream_padding scriptD padState (by decide) (by decide)

/-- C5: With the multistream flag false, once the end of the current
stream (and its padding) is reached the decoder-finished flag is set
and every subsequent `Read` returns `io.EOF` (after delivering any
remaining decoded bytes, here already delivered), and this persists
until `Reset` clears the flag; with multistream true and upstream input
still available, the flag stays clear at stream end, so the decoder
(reset during padding handling, see C4) continues with the next stream
instead of reporting end-of-file.  The `switch` case for `xzStreamEnd`
sets `dEOF` exactly when multistream is off or the upstream hit EOF. -/
theorem c5_single_vs_multistream (D : Dec σ) :
    (∀ (s : Reader σ ε) plen f, s.dEOF = true → s.err = none →
      s.outPos = s.bufOutPos →
      readM D (f + 1) s plen = some (s, [], some .eof)) ∧
    (∀ (plen : Nat) (acc : List Nat) (r r1 : Reader σ ε),
      decode D r = (r1, .streamEnd) → 0 ≤ r1.padding →
      ∃ c', decodeStep D plen acc r = .cont c' ∧ c'.rd.padding = -1 ∧
        c'.rd.dEOF = (if r1.multistream = false ∨ r1.rEOF = true then true
          else r1.dEOF)) ∧
    (∀ s : Reader σ ε, s.dEOF = true → s.rEOF = false →
      Reset s = ({ s with dEOF := false, multistream := true }, none)) := by
  refine ⟨?_, ?_, ?_⟩
  · intro s plen f hde herr hdr
    rcases s with ⟨ms, re, de, pad, op, bIn, bIp, bOut, bOp, dc, er, up⟩
    simp only at hde herr hdr
    subst hde; subst herr; subst hdr
    simp [readM, readLoop, readStep, copyOut]
  · intro plen acc r r1 hd hpad
    refine ⟨⟨{ r1 with
                padding := -1
                dEOF := if r1.multistream = false ∨ r1.rEOF = true then true
                  else r1.dEOF
                err := none }, plen, acc, none⟩, ?_, rfl, rfl⟩
    simp only [decodeStep, hd]
    rw [if_pos hpad]
  · intro s h1 h2
    simp [Reset, h1, h2]

theorem c5_witness :
    readM scriptD (0 + 1) finState 1 = some (finState, [], some .eof) ∧
      (∃ c', decodeStep scriptD 1 [] padEndState = .cont c' ∧
        c'.rd.padding = -1 ∧
        c'.rd.dEOF =
          (if (decode scriptD padEndState).1.multistream = false ∨
              (decode scriptD padEndState).1.rEOF = true then true
           else (decode scriptD padEndState).1.dEOF)) ∧
      Reset finState =
        ({ finState with dEOF := false, multistream := true }, none) :=
  ⟨(c5_single_vs_multistream scriptD).1 finState 1 0 rfl rfl rfl,
   (c5_single_vs_multistream scriptD).2.1 1 [] padEndState _ rfl (by decide),
   (c5_single_vs_multistream scriptD).2.2 finState rfl rfl⟩

/-- C9 (amended): For every well-formed configuration of a `Read` call:
one loop iteration preserves the cursor invariants
`outPos ≤ buf.outPos ≤ len(buf.out)` and `buf.inPos ≤ len(buf.in)` (so
all slice indexing in `Read` and `decode` stays in bounds), keeps the
output within the caller's buffer (`n ≤ len p`), and moves the cursors
forward — except that `buf.inPos` is reset to `0` when the input buffer
is refilled from the upstream reader (which happens only when
`buf.inPos = len(buf.in)` and `rEOF` is unset), and `r.outPos` is reset
to `0` (together with `buf.outPos`) when `decode` invokes the core
decoder.  (Amended from the claim: the cursors do not only advance; both
are reset to `0` at those two points, see the counterexample.) -/
theorem c9_bounds_and_monotonicity (D : Dec σ) (hD : DecWF D) (c : Cfg σ ε)
    (hwf : WFCfg c) :
    (∀ c', readStep D c = .cont c' →
      WFCfg c' ∧
      (c.rd.bufInPos ≤ c'.rd.bufInPos ∨
        (c.rd.bufInPos = c.rd.bufIn.length ∧ c.rd.rEOF = false)) ∧
      (c.rd.outPos ≤ c'.rd.outPos ∨ c'.rd.outPos = 0)) ∧
    (∀ r out e, readStep D c = .done r out e →
      WFReader r ∧ out.length ≤ c.plen ∧ c.rd.outPos ≤ r.outPos) := by
  obtain ⟨⟨h1, h2, h3, h4, h5⟩, ha⟩ := hwf
  have hco := copyOut_spec c.rd.bufOut c.rd.outPos c.rd.bufOutPos c.acc
    c.plen h1 h2 ha
  obtain ⟨co1, co2, co3, co4, co5⟩ := hco
  have hw := step_wf hD ⟨⟨h1, h2, h3, h4, h5⟩, ha⟩
  constructor
  · intro c' hs
    refine ⟨hw.1 c' hs, ?_⟩
    simp only [readStep] at hs
    split at hs
    · cases hs
    split at hs
    · cases hs
    split at hs
    · cases hs
    split at hs
    · rename_i hrefill
      split at hs
      · have hm := decodeStep_mono hs
        exact ⟨Or.inr hrefill, by
          rcases hm.2.1 with h | h
          · exact Or.inl (le_trans co2 h)
          · exact Or.inr h⟩
      · split at hs
        · cases hs
        · have hm := decodeStep_mono hs
          exact ⟨Or.inr hrefill, by
            rcases hm.2.1 with h | h
            · exact Or.inl (le_trans co2 h)
            · exact Or.inr h⟩
        · have hm := decodeStep_mono hs
          exact ⟨Or.inr hrefill, by
            rcases hm.2.1 with h | h
            · exact Or.inl (le_trans co2 h)
            · exact Or.inr h⟩
    · have hm := decodeStep_mono hs
      refine ⟨Or.inl ?_, ?_⟩
      · exact hm.1
      · rcases hm.2.1 with h | h
        · exact Or.inl (le_trans co2 h)
        · exact Or.inr h
  · intro r out e hs
    have hwd := hw.2 r out e hs
    refine ⟨hwd.1, hwd.2, ?_⟩
    simp only [readStep] at hs
    split at hs
    · cases hs; exact co2
    split at hs
    · cases hs; exact co2
    split at hs
    · cases hs; exact co2
    split at hs
    · split at hs
      · exact absurd hs (decodeStep_ne_done _ _ _ _ _ _)
      · split at hs
        · cases hs; exact co2
        · exact absurd hs (decodeStep_ne_done _ _ _ _ _ _)
        · exact absurd hs (decodeStep_ne_done _ _ _ _ _ _)
    · exact absurd hs (decodeStep_ne_done _ _ _ _ _ _)

/-- C9 counterexample: within a single `Read` call on `padState` (a
reader mid-padding), the first loop iteration consumes four padding
zeros (`buf.inPos` reaches 4) and the second iteration refills the input
buffer, after which `buf.inPos = 1 < 4`: the cursor moved backwards
between successive loop iterations of one call, refuting the
only-ever-advancing part of the claim. -/
theorem c9_counterexample :
    readM scriptD 3 padState 1 = readLoop scriptD 3 padCfg ∧
      readStep scriptD padCfg = .cont padCfg2 ∧
      readStep scriptD padCfg2 = .cont padCfg3 ∧
      padCfg2.rd.bufInPos = 4 ∧ padCfg3.rd.bufInPos = 1 ∧
      padCfg3.rd.bufInPos < padCfg2.rd.bufInPos :=
  ⟨rfl, rfl, rfl, rfl, rfl, by decide⟩

theorem c9_witness :
    (∀ c', readStep scriptD padCfg = .cont c' →
      WFCfg c' ∧
      (padCfg.rd.bufInPos ≤ c'.rd.bufInPos ∨
        (padCfg.rd.bufInPos = padCfg.rd.bufIn.length ∧
          padCfg.rd.rEOF = false)) ∧
      (padCfg.rd.outPos ≤ c'.rd.outPos ∨ c'.rd.outPos = 0)) ∧
    (∀ r out e, readStep scriptD padCfg = .done r out e →
      WFReader r ∧ out.length ≤ padCfg.plen ∧
        padCfg.rd.outPos ≤ r.outPos) :=
  c9_bounds_and_monotonicity scriptD scriptD_wf padCfg
    (by refine ⟨⟨?_, ?_, ?_, ?_, ?_⟩, ?_⟩ <;> decide)

end Claims

end XzR

namespace XzR

section ConcatRun

/-! Lemmas driving a full multistream `Read` call over the wire
`X1 ∥ 0^g1 ∥ X2 ∥ … ∥ Xk` with the script decoder, one upstream byte
per refill.  Each lemma walks the loop through one phase of the run. -/

variable {m : Nat}

/-- Consuming the remaining bytes of the current stream, one upstream
byte per loop iteration. -/
theorem c3_consume : ∀ (remB : List Nat) (remP : List Nat)
    (rest : List (List Nat × List Nat)) (w acc bIn B : List Nat) (op : Nat),
    ∃ bIn' op', Reaches (ε := Unit) scriptD
      ⟨rdC3 ⟨(remB, remP), rest⟩ (-1) bIn bIn.length B op op false false
        (remB ++ w), m, acc, none⟩
      ⟨rdC3 ⟨([], remP), rest⟩ (-1) bIn' bIn'.length B op' op' false false
        w, m, acc, none⟩ := by
  intro remB
  induction remB with
  | nil =>
    intro remP rest w acc bIn B op
    exact ⟨bIn, op, by rw [List.nil_append]; exact reaches_refl _⟩
  | cons b rb ih =>
    intro remP rest w acc bIn B op
    obtain ⟨bIn', op', hr⟩ := ih remP rest w acc [b] B 0
    refine ⟨bIn', op', reaches_trans (reaches_step ?_) hr⟩
    simp [readStep, copyOut, decodeStep, decode, scriptD, scriptRun,
      matchLen, rdC3, byteChunks, Nat.succ_min_succ]

/-- Emitting the plaintext of the current stream in output-buffer-sized
pieces, the previously emitted piece being copied out at the top of each
iteration; the input state is untouched (no refill can trigger). -/
theorem c3_emit_inner : ∀ (n : Nat) (remP pendPrev : List Nat)
    (rest : List (List Nat × List Nat)) (acc B bIn : List Nat)
    (bInPos : Nat) (reof : Bool) (w : List Nat),
    remP.length ≤ n →
    ¬(bInPos = bIn.length ∧ reof = false) →
    B.length = bufSize →
    B.take pendPrev.length = pendPrev →
    acc.length + pendPrev.length + remP.length < m →
    ∃ acc₂ pend B', acc₂ ++ pend = acc ++ pendPrev ++ remP ∧
      B'.length = bufSize ∧ B'.take pend.length = pend ∧
      pend.length ≤ bufSize ∧
      Reaches (ε := Unit) scriptD
        ⟨rdC3 ⟨([], remP), rest⟩ (-1) bIn bInPos B pendPrev.length 0 reof
          false w, m, acc, none⟩
        ⟨rdC3 (popScript rest) 0 bIn bInPos B' pend.length 0 reof false w,
          m, acc₂, none⟩ := by
  intro n
  induction n with
  | zero =>
    intro remP pendPrev rest acc B bIn bInPos reof w hn hU hB hBp hroom
    have hremP : remP = [] := List.length_eq_zero.mp (by omega)
    subst hremP
    refine ⟨acc ++ pendPrev, [], B, by simp, hB, by simp, by simp, ?_⟩
    refine reaches_step ?_
    have hk : min pendPrev.length (m - acc.length) = pendPrev.length :=
      Nat.min_eq_left (by omega)
    simp [readStep, copyOut, decodeStep, decode, scriptD, scriptRun,
      rdC3, hU, hk, hBp]
  | succ n ih =>
    intro remP pendPrev rest acc B bIn bInPos reof w hn hU hB hBp hroom
    have hk : min pendPrev.length (m - acc.length) = pendPrev.length :=
      Nat.min_eq_left (by omega)
    by_cases hdrop : remP.drop B.length = []
    · have hlen : remP.length ≤ B.length := by
        have := List.length_drop B.length remP
        rw [hdrop] at this
        simp at this
        omega
      have htake : remP.take B.length = remP := List.take_of_length_le hlen
      refine ⟨acc ++ pendPrev, remP, remP ++ B.drop remP.length,
        by simp, ?_, ?_, by omega, ?_⟩
      · simp only [List.length_append, List.length_drop]
        omega
      · exact List.take_left remP _
      · refine reaches_step ?_
        simp [readStep, copyOut, decodeStep, decode, scriptD, scriptRun,
          rdC3, hU, hk, hBp, hdrop, htake]
    · have hlen : bufSize < remP.length := by
        have := List.length_drop B.length remP
        by_contra hc
        have h0 : remP.length - B.length = 0 := by omega
        rw [h0] at this
        exact hdrop (List.length_eq_zero.mp this)
      have hlentake : (remP.take B.length).length = bufSize := by
        rw [List.length_take]
        omega
      obtain ⟨acc₂, pend, B', hsum, hB', hBp', hpend, hr⟩ :=
        ih (remP.drop B.length) (remP.take B.length) rest
          (acc ++ pendPrev)
          (remP.take B.length ++ B.drop (remP.take B.length).length)
          bIn bInPos reof w
          (by
            rw [List.length_drop]
            have hbs : 1 ≤ bufSize := by decide
            omega)
          hU
          (by simp only [List.length_append, List.length_take,
                List.length_drop]; omega)
          (List.take_left _ _)
          (by simp only [List.length_append, List.length_take,
                List.length_drop]; omega)
      refine ⟨acc₂, pend, B', ?_, hB', hBp', hpend,
        reaches_trans (reaches_step ?_) hr⟩
      · rw [hsum, List.append_assoc, List.take_append_drop]
      · simp [readStep, copyOut, decodeStep, decode, scriptD, scriptRun,
          rdC3, hU, hk, hBp, hdrop]

/-- Emission phase when the wire is exhausted (last stream): the first
iteration's refill hits upstream EOF, and the emitted plaintext is
produced with `rEOF` set. -/
theorem c3_emit_nil (remP : List Nat) (rest : List (List Nat × List Nat))
    (acc B bIn : List Nat) (op : Nat) (hB : B.length = bufSize)
    (hroom : acc.length + remP.length < m) :
    ∃ acc₂ pend B', acc₂ ++ pend = acc ++ remP ∧ B'.length = bufSize ∧
      B'.take pend.length = pend ∧ pend.length ≤ bufSize ∧
      Reaches (ε := Unit) scriptD
        ⟨rdC3 ⟨([], remP), rest⟩ (-1) bIn bIn.length B op op false false [],
          m, acc, none⟩
        ⟨rdC3 (popScript rest) 0 [] 0 B' pend.length 0 true false [],
          m, acc₂, none⟩ := by
  by_cases hdrop : remP.drop B.length = []
  · have hlen : remP.length ≤ B.length := by
      have := List.length_drop B.length remP
      rw [hdrop] at this
      simp at this
      omega
    have htake : remP.take B.length = remP := List.take_of_length_le hlen
    refine ⟨acc, remP, remP ++ B.drop remP.length, rfl, ?_,
      List.take_left remP _, by omega, reaches_step ?_⟩
    · simp only [List.length_append, List.length_drop]
      omega
    · simp [readStep, copyOut, decodeStep, decode, scriptD, scriptRun,
        rdC3, byteChunks, hdrop, htake]
  · have hlen : bufSize < remP.length := by
      have := List.length_drop B.length remP
      by_contra hc
      have h0 : remP.length - B.length = 0 := by omega
      rw [h0] at this
      exact hdrop (List.length_eq_zero.mp this)
    obtain ⟨acc₂, pend, B', hsum, hB', hBp', hpend, hr⟩ :=
      c3_emit_inner (m := m) (remP.drop B.length).length
        (remP.drop B.length) (remP.take B.length) rest acc
        (remP.take B.length ++ B.drop (remP.take B.length).length)
        [] 0 true [] le_rfl (by simp)
        (by simp only [List.length_append, List.length_take,
              List.length_drop]; omega)
        (List.take_left _ _)
        (by simp only [List.length_take, List.length_drop]; omega)
    refine ⟨acc₂, pend, B', ?_, hB', hBp', hpend,
      reaches_trans (reaches_step ?_) hr⟩
    · rw [hsum, List.append_assoc, List.take_append_drop]
    · simp [readStep, copyOut, decodeStep, decode, scriptD, scriptRun,
        rdC3, byteChunks, hdrop]

/-- Emission phase with wire remaining: the first iteration's refill
loads the next wire byte, which then waits unconsumed through the
emission. -/
theorem c3_emit_cons (remP : List Nat) (rest : List (List Nat × List Nat))
    (acc B bIn : List Nat) (op : Nat) (b : Nat) (w' : List Nat)
    (hB : B.length = bufSize) (hroom : acc.length + remP.length < m) :
    ∃ acc₂ pend B', acc₂ ++ pend = acc ++ remP ∧ B'.length = bufSize ∧
      B'.take pend.length = pend ∧ pend.length ≤ bufSize ∧
      Reaches (ε := Unit) scriptD
        ⟨rdC3 ⟨([], remP), rest⟩ (-1) bIn bIn.length B op op false false
          (b :: w'), m, acc, none⟩
        ⟨rdC3 (popScript rest) 0 [b] 0 B' pend.length 0 false false w',
          m, acc₂, none⟩ := by
  by_cases hdrop : remP.drop B.length = []
  · have hlen : remP.length ≤ B.length := by
      have := List.length_drop B.length remP
      rw [hdrop] at this
      simp at this
      omega
    have htake : remP.take B.length = remP := List.take_of_length_le hlen
    refine ⟨acc, remP, remP ++ B.drop remP.length, rfl, ?_,
      List.take_left remP _, by omega, reaches_step ?_⟩
    · simp only [List.length_append, List.length_drop]
      omega
    · simp [readStep, copyOut, decodeStep, decode, scriptD, scriptRun,
        rdC3, byteChunks, hdrop, htake]
  · have hlen : bufSize < remP.length := by
      have := List.length_drop B.length remP
      by_contra hc
      have h0 : remP.length - B.length = 0 := by omega
      rw [h0] at this
      exact hdrop (List.length_eq_zero.mp this)
    obtain ⟨acc₂, pend, B', hsum, hB', hBp', hpend, hr⟩ :=
      c3_emit_inner (m := m) (remP.drop B.length).length
        (remP.drop B.length) (remP.take B.length) rest acc
        (remP.take B.length ++ B.drop (remP.take B.length).length)
        [b] 0 false w' le_rfl (by simp)
        (by simp only [List.length_append, List.length_take,
              List.length_drop]; omega)
        (List.take_left _ _)
        (by simp only [List.length_take, List.length_drop]; omega)
    refine ⟨acc₂, pend, B', ?_, hB', hBp', hpend,
      reaches_trans (reaches_step ?_) hr⟩
    · rw [hsum, List.append_assoc, List.take_append_drop]
    · simp [readStep, copyOut, decodeStep, decode, scriptD, scriptRun,
        rdC3, byteChunks, hdrop]

/-- After the last stream: the trailing padding check at upstream EOF
succeeds (length 0), the decoder-finished flag is set, and the `Read`
call returns everything delivered plus `io.EOF`. -/
theorem c3_final (dec : ScriptDec) (acc₂ pend B' : List Nat)
    (hBp : B'.take pend.length = pend)
    (hroom : acc₂.length + pend.length < m) :
    ∃ f r, readLoop (ε := Unit) scriptD f
      ⟨rdC3 dec 0 [] 0 B' pend.length 0 true false [], m, acc₂, none⟩ =
      some (r, acc₂ ++ pend, some .eof) := by
  have hk : min pend.length (m - acc₂.length) = pend.length :=
    Nat.min_eq_left (by omega)
  have h1 : readStep (ε := Unit) scriptD
      ⟨rdC3 dec 0 [] 0 B' pend.length 0 true false [], m, acc₂, none⟩ =
      .cont ⟨rdC3 dec (-1) [] 0 B' pend.length pend.length true true [],
        m, acc₂ ++ pend, none⟩ := by
    simp [readStep, copyOut, decodeStep, decode, scriptD, scriptRun,
      rdC3, byteChunks, zcount, hk, hBp]
  have h2 : readStep (ε := Unit) scriptD
      ⟨rdC3 dec (-1) [] 0 B' pend.length pend.length true true [],
        m, acc₂ ++ pend, none⟩ =
      .done (rdC3 dec (-1) [] 0 B' pend.length pend.length true true [])
        (acc₂ ++ pend) (some .eof) := by
    simp [readStep, copyOut, rdC3]
  obtain ⟨f, hf⟩ := reaches_done (reaches_step h1) h2
  exact ⟨f, _, hf⟩

/-- Scanning the zero bytes of an inter-stream gap, one upstream byte
per iteration, until the non-zero first byte of the next stream stops
the scan with a multiple-of-4 padding count: the decoder is reset and
the follow-on stream's first byte is left loaded in the input buffer. -/
theorem c3_gap_loop : ∀ (zRem : Nat) (p : Int), 0 ≤ p →
    (p + zRem) % 4 = 0 →
    ∀ (q x : Nat), x ≠ 0 →
    ∀ (wr acc B : List Nat) (op : Nat) (dec : ScriptDec),
    Reaches (ε := Unit) scriptD
      ⟨rdC3 dec p [q] 1 B op op false false
        (List.replicate zRem 0 ++ x :: wr), m, acc, none⟩
      ⟨rdC3 dec (-1) [x] 0 B op op false false wr, m, acc, none⟩ := by
  intro zRem
  induction zRem with
  | zero =>
    intro p hp hmod q x hx wr acc B op dec
    have hmod' : p % 4 = 0 := by simpa using hmod
    refine reaches_step ?_
    simp [readStep, copyOut, decodeStep, decode, scriptD, scriptRun,
      rdC3, byteChunks, zcount, hx, hp, hmod']
  | succ s ihs =>
    intro p hp hmod q x hx wr acc B op dec
    have hstep : readStep (ε := Unit) scriptD
        ⟨rdC3 dec p [q] 1 B op op false false
          (List.replicate (s + 1) 0 ++ x :: wr), m, acc, none⟩ =
        .cont ⟨rdC3 dec (p + 1) [0] 1 B op op false false
          (List.replicate s 0 ++ x :: wr), m, acc, none⟩ := by
      rw [List.replicate_succ, List.cons_append]
      simp [readStep, copyOut, decodeStep, decode, scriptD, scriptRun,
        rdC3, byteChunks, zcount, hp]
    refine reaches_trans (reaches_step hstep) (ihs (p + 1) (by omega) ?_
      0 x hx wr acc B op dec)
    omega

/-- The first iteration after a stream end: the pending emitted piece is
copied out, and the padding scan over the gap (possibly empty) runs to
the first byte of the next stream. -/
theorem c3_pad_phase (g : Nat) (hg : g % 4 = 0) (b₂ : Nat) (hb : b₂ ≠ 0)
    (w₂ : List Nat) (dec : ScriptDec) (acc₂ pend B' : List Nat)
    (hBp : B'.take pend.length = pend)
    (hroom : acc₂.length + pend.length < m) :
    ∀ b₀ wtail, b₀ :: wtail = List.replicate g 0 ++ b₂ :: w₂ →
    Reaches (ε := Unit) scriptD
      ⟨rdC3 dec 0 [b₀] 0 B' pend.length 0 false false wtail, m, acc₂,
        none⟩
      ⟨rdC3 dec (-1) [b₂] 0 B' pend.length pend.length false false w₂,
        m, acc₂ ++ pend, none⟩ := by
  have hk : min pend.length (m - acc₂.length) = pend.length :=
    Nat.min_eq_left (by omega)
  intro b₀ wtail hsplit
  cases g with
  | zero =>
    rw [List.replicate, List.nil_append] at hsplit
    injection hsplit with hb0 hw
    subst hb0; subst hw
    refine reaches_step ?_
    simp [readStep, copyOut, decodeStep, decode, scriptD, scriptRun,
      rdC3, byteChunks, zcount, hk, hBp, hb]
  | succ s =>
    rw [List.replicate_succ, List.cons_append] at hsplit
    injection hsplit with hb0 hw
    subst hb0; subst hw
    have hstep : readStep (ε := Unit) scriptD
        ⟨rdC3 dec 0 [0] 0 B' pend.length 0 false false
          (List.replicate s 0 ++ b₂ :: w₂), m, acc₂, none⟩ =
        .cont ⟨rdC3 dec 1 [0] 1 B' pend.length pend.length false false
          (List.replicate s 0 ++ b₂ :: w₂), m, acc₂ ++ pend, none⟩ := by
      simp [readStep, copyOut, decodeStep, decode, scriptD, scriptRun,
        rdC3, byteChunks, zcount, hk, hBp]
    refine reaches_trans (reaches_step hstep)
      (c3_gap_loop s 1 (by omega) ?_ 0 b₂ hb w₂ (acc₂ ++ pend) B'
        pend.length dec)
    omega

/-- One iteration consuming the already-loaded first byte of the
follow-on stream. -/
theorem c3_consume_waiting (x : Nat) (xs remP : List Nat)
    (rest : List (List Nat × List Nat)) (w acc B : List Nat) (op : Nat) :
    Reaches (ε := Unit) scriptD
      ⟨rdC3 ⟨(x :: xs, remP), rest⟩ (-1) [x] 0 B op op false false
        (xs ++ w), m, acc, none⟩
      ⟨rdC3 ⟨(xs, remP), rest⟩ (-1) [x] 1 B 0 0 false false (xs ++ w),
        m, acc, none⟩ := by
  refine reaches_step ?_
  simp [readStep, copyOut, decodeStep, decode, scriptD, scriptRun,
    matchLen, rdC3, byteChunks, Nat.succ_min_succ]

/-- Decoding a full multistream run: from the start of any stream, the
`Read` loop delivers that stream's plaintext and the plaintexts of all
follow-on streams, then `io.EOF`. -/
theorem c3_stream_run : ∀ (rest : List (Nat × List Nat × List Nat))
    (remB remP acc bIn B : List Nat) (op : Nat),
    B.length = bufSize →
    acc.length + remP.length + (plainBytes rest).length < m →
    (∀ e ∈ rest, e.1 % 4 = 0 ∧ ∃ b t, e.2.1 = b :: t ∧ b ≠ 0) →
    ∃ f r, readLoop (ε := Unit) scriptD f
      ⟨rdC3 ⟨(remB, remP), rest.map (fun e => (e.2.1, e.2.2))⟩ (-1)
        bIn bIn.length B op op false false (remB ++ wireBytes rest),
        m, acc, none⟩ =
      some (r, acc ++ remP ++ plainBytes rest, some .eof) := by
  intro rest
  induction rest with
  | nil =>
    intro remB remP acc bIn B op hB hroom hstreams
    obtain ⟨bIn', op', hc⟩ := c3_consume (m := m) remB remP [] []
      acc bIn B op
    obtain ⟨acc₂, pend, B', hsum, hB', hBp', hpend, he⟩ :=
      c3_emit_nil (m := m) remP [] acc B bIn' op' hB
        (by simp [plainBytes] at hroom; omega)
    have hlen2 : acc₂.length + pend.length = acc.length + remP.length := by
      have := congrArg List.length hsum
      simpa [List.length_append] using this
    obtain ⟨f, r, hf⟩ := c3_final (m := m) (popScript []) acc₂ pend B'
      hBp' (by simp [plainBytes] at hroom; omega)
    have hreach := reaches_trans (by simpa [wireBytes] using hc) he
    obtain ⟨f', hf'⟩ := reaches_loop hreach hf
    refine ⟨f', r, ?_⟩
    simp only [wireBytes, plainBytes, List.map_nil, List.append_nil] at hf' ⊢
    rw [hf', hsum]
  | cons hd rest' ih =>
    obtain ⟨g, x₂, p₂⟩ := hd
    intro remB remP acc bIn B op hB hroom hstreams
    have hhd := hstreams (g, x₂, p₂) (List.mem_cons_self _ _)
    obtain ⟨hg, b₂, t₂, hx₂, hb₂⟩ := hhd
    simp only at hg hx₂
    obtain ⟨b₀, wtail, hw⟩ : ∃ b₀ wtail,
        List.replicate g 0 ++ b₂ :: (t₂ ++ wireBytes rest') =
          b₀ :: wtail := by
      cases g with
      | zero => exact ⟨b₂, t₂ ++ wireBytes rest', by simp⟩
      | succ s => exact ⟨0, List.replicate s 0 ++ b₂ ::
          (t₂ ++ wireBytes rest'), by simp [List.replicate_succ]⟩
    have hwire : wireBytes ((g, x₂, p₂) :: rest') = b₀ :: wtail := by
      rw [wireBytes, hx₂, ← hw]
      simp
    obtain ⟨bIn', op', hc⟩ := c3_consume (m := m) remB remP
      ((x₂, p₂) :: rest'.map (fun e => (e.2.1, e.2.2))) (b₀ :: wtail)
      acc bIn B op
    obtain ⟨acc₂, pend, B', hsum, hB', hBp', hpend, he⟩ :=
      c3_emit_cons (m := m) remP
        ((x₂, p₂) :: rest'.map (fun e => (e.2.1, e.2.2))) acc B bIn' op'
        b₀ wtail hB
        (by simp [plainBytes, List.length_append] at hroom; omega)
    have hlen2 : acc₂.length + pend.length = acc.length + remP.length := by
      have := congrArg List.length hsum
      simpa [List.length_append] using this
    have hpadreach := c3_pad_phase (m := m) g hg b₂ hb₂
      (t₂ ++ wireBytes rest')
      ⟨(x₂, p₂), rest'.map (fun e => (e.2.1, e.2.2))⟩ acc₂ pend B' hBp'
      (by simp [plainBytes, List.length_append] at hroom; omega)
      b₀ wtail hw.symm
    have hwait := c3_consume_waiting (m := m) b₂ t₂ p₂
      (rest'.map (fun e => (e.2.1, e.2.2))) (wireBytes rest')
      (acc₂ ++ pend) B' pend.length
    obtain ⟨f, r, hf⟩ := ih t₂ p₂ (acc₂ ++ pend) [b₂] B' 0 hB'
      (by
        simp only [plainBytes, List.length_append] at hroom ⊢
        omega)
      (fun e hee => hstreams e (List.mem_cons_of_mem _ hee))
    have hemit : Reaches (ε := Unit) scriptD
        ⟨rdC3 ⟨([], remP), (x₂, p₂) :: rest'.map (fun e => (e.2.1, e.2.2))⟩
          (-1) bIn' bIn'.length B op' op' false false (b₀ :: wtail),
          m, acc, none⟩
        ⟨rdC3 ⟨(x₂, p₂), rest'.map (fun e => (e.2.1, e.2.2))⟩ 0 [b₀] 0 B'
          pend.length 0 false false wtail, m, acc₂, none⟩ := by
      simpa [popScript] using he
    have hpad2 : Reaches (ε := Unit) scriptD
        ⟨rdC3 ⟨(x₂, p₂), rest'.map (fun e => (e.2.1, e.2.2))⟩ 0 [b₀] 0 B'
          pend.length 0 false false wtail, m, acc₂, none⟩
        ⟨rdC3 ⟨(b₂ :: t₂, p₂), rest'.map (fun e => (e.2.1, e.2.2))⟩ (-1)
          [b₂] 0 B' pend.length pend.length false false
          (t₂ ++ wireBytes rest'), m, acc₂ ++ pend, none⟩ := by
      rw [← hx₂]
      exact hpadreach
    have hreach := reaches_trans (reaches_trans (reaches_trans hc hemit)
      hpad2) hwait
    obtain ⟨f', hf'⟩ := reaches_loop hreach hf
    refine ⟨f', r, ?_⟩
    rw [List.map_cons, hwire]
    rw [hf']
    rw [hsum]
    simp [plainBytes]

/-- C3: For every finite list of valid XZ streams `X1..Xk` (modelled by
the script decoder: nonempty streams whose first byte is non-zero, each
decoding to its plaintext) and any interleaving of inter-stream zero
padding whose per-gap length is a multiple of 4: when the Reader's
multistream flag is true (as set by `NewReader`), reading the
concatenation `X1 ∥ 0^g2 ∥ X2 ∥ … ∥ Xk` to completion yields exactly the
concatenation of the plaintexts of the individual streams, followed by
`io.EOF`. -/
theorem c3_multistream_concat (x1 p1 : List Nat)
    (rest : List (Nat × List Nat × List Nat))
    (hrest : ∀ e ∈ rest, e.1 % 4 = 0 ∧ ∃ b t, e.2.1 = b :: t ∧ b ≠ 0) :
    ∃ r₀ f r,
      NewReader (fun _ => (⟨(x1, p1),
          rest.map (fun e => (e.2.1, e.2.2))⟩ : ScriptDec))
        (some (byteChunks (x1 ++ wireBytes rest))) 0 = .ok r₀ ∧
      r₀.multistream = true ∧
      readM scriptD f r₀ ((p1 ++ plainBytes rest).length + 1) =
        some (r, p1 ++ plainBytes rest, some .eof) := by
  obtain ⟨f, r, hf⟩ :=
    c3_stream_run (m := (p1 ++ plainBytes rest).length + 1) rest x1 p1
      [] [] (List.replicate bufSize 0) 0 (by simp)
      (by simp only [List.length_nil, List.length_append]; omega) hrest
  refine ⟨_, f, r, rfl, rfl, ?_⟩
  simp only [readM, NewReader]
  simpa [rdC3] using hf

theorem c3_witness :
    ∃ r₀ f r,
      NewReader (fun _ => (⟨([5], [9]),
          [(4, [7], [3])].map (fun e => (e.2.1, e.2.2))⟩ : ScriptDec))
        (some (byteChunks ([5] ++ wireBytes [(4, [7], [3])]))) 0 =
        .ok r₀ ∧
      r₀.multistream = true ∧
      readM scriptD f r₀ (([9] ++ plainBytes [(4, [7], [3])]).length + 1) =
        some (r, [9] ++ plainBytes [(4, [7], [3])], some .eof) :=
  c3_multistream_concat [5] [9] [(4, [7], [3])] (by
    intro e he
    simp at he
    subst he
    exact ⟨by decide, 7, [], rfl, by decide⟩)

end ConcatRun

end XzR
